import Mathlib

/-!
# static/js/script.js

A shallow embedding of the two `DOMContentLoaded` handlers of `static/js/script.js`
(the theme controller and the codename generator) together with the small part of
the browser they talk to: the class list of `document.body`, the three elements
looked up by id, `localStorage`, click dispatch and `Math.random`.

JavaScript numbers are the rationals that binary64 represents: a draw of
`Math.random()` is such a rational in [0,1), the product `Math.random() * xs.length` is
the exact product rounded to the nearest double (ties to even), and `Math.floor` is the
integer floor.
-/

namespace Script

/-! ## Browser objects -/

/-- Exceptions raised by the browser objects used in the script. -/
inductive DOMException where
  | securityError
  deriving DecidableEq, Repr

/-- The origin-scoped `localStorage`: either access is denied (every use throws a
`SecurityError`) or it is a finite list of key/value entries. -/
inductive Storage where
  | denied
  | entries (kv : List (String × String))
  deriving DecidableEq, Repr

/-- Replace the value of `key`, or append a new entry when the key is not stored. -/
def setEntry (kv : List (String × String)) (key value : String) : List (String × String) :=
  if kv.any (fun e => e.1 == key) then
    kv.map (fun e => if e.1 == key then (key, value) else e)
  else
    kv ++ [(key, value)]

/-- `localStorage.getItem(key)`: `none` is JavaScript `null`. -/
def Storage.getItem : Storage → String → Except DOMException (Option String)
  | .denied, _ => .error .securityError
  | .entries kv, key => .ok (kv.lookup key)

/-- `localStorage.setItem(key, value)`. -/
def Storage.setItem : Storage → String → String → Except DOMException Storage
  | .denied, _, _ => .error .securityError
  | .entries kv, key, value => .ok (.entries (setEntry kv key value))

/-- A `classList`: the ordered tokens of an element's `class` attribute. -/
abbrev DOMTokenList := List String

/-- `classList.contains(token)`. -/
def DOMTokenList.has (cl : DOMTokenList) (token : String) : Bool :=
  cl.any (fun t => t == token)

/-- `classList.add(token)`: appends the token unless it is already there. -/
def DOMTokenList.add (cl : DOMTokenList) (token : String) : DOMTokenList :=
  if cl.has token then cl else cl ++ [token]

/-- `classList.remove(token)`. -/
def DOMTokenList.remove (cl : DOMTokenList) (token : String) : DOMTokenList :=
  cl.filter (fun t => !(t == token))

/-- `classList.toggle(token)`: removes the token when present, adds it otherwise. -/
def DOMTokenList.toggle (cl : DOMTokenList) (token : String) : DOMTokenList :=
  if cl.has token then cl.remove token else cl ++ [token]

/-- The two arrow functions that the script registers as click listeners. -/
inductive Listener where
  | themeClick
  | generateClick
  deriving DecidableEq, Repr

/-- A clickable element with its registered click listeners, in registration order. -/
structure Element where
  listeners : List Listener
  deriving DecidableEq, Repr

/-- `el.addEventListener('click', f)` for a freshly created closure `f`: every
evaluation of an arrow function is a new object, so nothing is deduplicated. -/
def Element.addEventListener (el : Element) (f : Listener) : Element :=
  { el with listeners := el.listeners ++ [f] }

/-- A text input; only its `value` is used. -/
structure InputElement where
  value : String
  deriving DecidableEq, Repr

/-- The page as the script sees it. An element is `none` when `getElementById`
returns `null` for its id. -/
structure Document where
  /-- `document.body.classList` -/
  body : DOMTokenList
  /-- `document.getElementById('theme-toggle')` -/
  themeToggle : Option Element
  /-- `document.getElementById('generate-name')` -/
  generateName : Option Element
  /-- `document.getElementById('codename-input')` -/
  codenameInput : Option InputElement
  localStorage : Storage
  deriving DecidableEq, Repr

/-! ## Theme controller (script.js lines 1-20) -/

/-- The first `DOMContentLoaded` handler. The second component is the exception the
handler ends with, if any: the storage read of line 5 is the only operation that can
throw, and nothing has been changed when it does. -/
def themeInit (d : Document) : Document × Option DOMException :=
  let toggleBtn := d.themeToggle
  let body := d.body
  match d.localStorage.getItem "theme" with
  | .error e => (d, some e)
  | .ok stored =>
    let body := if stored = some "dark" then body.add "dark-theme" else body
    match toggleBtn with
    | some el =>
      ({ d with body := body, themeToggle := some (el.addEventListener .themeClick) }, none)
    | none => ({ d with body := body }, none)

/-- The click listener of the theme toggle (lines 10-18). The second component is the
exception the listener ends with, if any; the class list has been toggled by then. -/
def themeClick (d : Document) : Document × Option DOMException :=
  let body := d.body.toggle "dark-theme"
  let value := if body.has "dark-theme" then "dark" else "light"
  match d.localStorage.setItem "theme" value with
  | .ok s => ({ d with body := body, localStorage := s }, none)
  | .error e => ({ d with body := body }, some e)

/-! ## The word lists (script.js lines 28-35) -/

def adjectives : List String :=
  ["Shadow", "Silent", "Dark", "Golden", "Iron",
   "Ghost", "Neon", "Swift", "Crimson", "Cold"]

def nouns : List String :=
  ["Fox", "Wolf", "Falcon", "Specter", "Blade",
   "Hunter", "Raven", "Viper", "Knight", "Storm"]

/-! ## Double-precision arithmetic (`Math.random() * xs.length`) -/

/-- The integer nearest to `q`; a tie goes to the even neighbour. -/
def roundHalfEven (q : ℚ) : ℤ :=
  let f := ⌊q⌋
  if q - f < 1 / 2 then f
  else if 1 / 2 < q - f then f + 1
  else if f % 2 = 0 then f else f + 1

/-- The binary exponent of the last place of a binary64 number of the size of `x`:
53 significant bits, so 52 places below the leading one, and never under the subnormal
exponent `-1074`. -/
def ulpExponent (x : ℚ) : ℤ := max (Int.log 2 |x| - 52) (-1074)

/-- The IEEE-754 binary64 number nearest to `x`, ties to even, as an exact rational.
Overflow to `Infinity` is not modelled: the script rounds products below 10 only. -/
def roundDouble (x : ℚ) : ℚ :=
  (roundHalfEven (x / 2 ^ ulpExponent x) : ℚ) * 2 ^ ulpExponent x

/-- The rational `x` is the value of a JavaScript number: rounding leaves it alone. -/
def isDouble (x : ℚ) : Prop := roundDouble x = x

instance (x : ℚ) : Decidable (isDouble x) := inferInstanceAs (Decidable (roundDouble x = x))

/-- The product `a * b` of two JavaScript numbers. -/
def mulDouble (a b : ℚ) : ℚ := roundDouble (a * b)

/-! ## Codename generator (script.js lines 23-45) -/

/-- `Math.floor`. -/
def mathFloor (x : ℚ) : ℤ := ⌊x⌋

/-- Array indexing `xs[i]`: `none` is `undefined` (index negative or past the end). -/
def arrayGet (xs : List String) (i : ℤ) : Option String :=
  if 0 ≤ i then xs[i.toNat]? else none

/-- String conversion inside a template literal. -/
def interpolate : Option String → String
  | some s => s
  | none => "undefined"

/-- The index `Math.floor(Math.random() * xs.length)` for the draw `r`. -/
def randomIndex (xs : List String) (r : ℚ) : ℤ :=
  mathFloor (mulDouble r (xs.length : ℚ))

/-- The template literal of line 41. -/
def generatedName (randomAdj randomNoun : Option String) : String :=
  interpolate randomAdj ++ " " ++ interpolate randomNoun

/-- The name that line 41 builds when the two indices are `i` and `j`. -/
def nameAt (i j : ℤ) : String :=
  generatedName (arrayGet adjectives i) (arrayGet nouns j)

/-- The click listener of the generator trigger (lines 37-43); `r1` and `r2` are the
results of its two calls of `Math.random()`, in call order. The listener is registered
only when the field exists. -/
def generateClick (r1 r2 : ℚ) (d : Document) : Document :=
  let randomAdj := arrayGet adjectives (randomIndex adjectives r1)
  let randomNoun := arrayGet nouns (randomIndex nouns r2)
  match d.codenameInput with
  | some nameInput =>
    { d with codenameInput := some { nameInput with value := generatedName randomAdj randomNoun } }
  | none => d

/-- The second `DOMContentLoaded` handler. -/
def generatorInit (d : Document) : Document :=
  let diceBtn := d.generateName
  let nameInput := d.codenameInput
  match diceBtn, nameInput with
  | some el, some _ => { d with generateName := some (el.addEventListener .generateClick) }
  | _, _ => d

/-! ## Click dispatch -/

/-- Run one listener. `rand` is the sequence of results of `Math.random()` and the
counter says how many have been used. An exception thrown by a listener is reported by
the browser and does not stop the remaining listeners. -/
def runListener (rand : ℕ → ℚ) (acc : Document × ℕ) : Listener → Document × ℕ
  | .themeClick => ((themeClick acc.1).1, acc.2)
  | .generateClick => (generateClick (rand acc.2) (rand (acc.2 + 1)) acc.1, acc.2 + 2)

/-- Run the listeners of a click target in registration order. -/
def dispatch (rand : ℕ → ℚ) (target : Option Element) (d : Document) : Document :=
  match target with
  | some el => (el.listeners.foldl (runListener rand) (d, 0)).1
  | none => d

/-- A click on the theme toggle. -/
def clickToggle (d : Document) : Document :=
  dispatch (fun _ => 0) d.themeToggle d

/-- A click on the generator trigger, with the draws `rand 0, rand 1, ...`. -/
def clickGenerate (rand : ℕ → ℚ) (d : Document) : Document :=
  dispatch rand d.generateName d

/-- The dark-theme marker is on the root. -/
def Document.dark (d : Document) : Bool := d.body.has "dark-theme"

/-- The stored `'theme'` value of an accessible storage. -/
def Document.theme (d : Document) : Option String :=
  match d.localStorage with
  | .entries kv => kv.lookup "theme"
  | .denied => none

/-! ## Lemmas on class lists and storage entries -/

theorem has_append_self (cl : DOMTokenList) (t : String) : (cl ++ [t]).has t = true := by
  simp [DOMTokenList.has]

theorem has_remove_self (cl : DOMTokenList) (t : String) : (cl.remove t).has t = false := by
  simp [DOMTokenList.has, DOMTokenList.remove]

theorem has_add_self (cl : DOMTokenList) (t : String) : (cl.add t).has t = true := by
  unfold DOMTokenList.add
  by_cases h : cl.has t = true
  · simp [h]
  · simp [h, has_append_self]

theorem has_toggle_self (cl : DOMTokenList) (t : String) :
    (cl.toggle t).has t = !cl.has t := by
  unfold DOMTokenList.toggle
  by_cases h : cl.has t = true
  · simp [h, has_remove_self]
  · simp [h, has_append_self]

theorem lookup_map_set (kv : List (String × String)) (key value : String)
    (h : kv.any (fun e => e.1 == key) = true) :
    (kv.map (fun e => if e.1 == key then (key, value) else e)).lookup key = some value := by
  induction kv with
  | nil => simp at h
  | cons e rest ih =>
    obtain ⟨k, v⟩ := e
    by_cases he : k = key
    · subst he
      simp only [List.map_cons, beq_self_eq_true, if_true, List.lookup_cons]
    · have hne : (key == k) = false := by
        simpa using fun hk => he hk.symm
      have hrest : rest.any (fun e => e.1 == key) = true := by
        simpa [he] using h
      have hk : (k == key) = false := by simpa using he
      simp only [List.map_cons, hk, Bool.false_eq_true, if_false, List.lookup_cons, hne]
      exact ih hrest

theorem lookup_append_new (kv : List (String × String)) (key value : String)
    (h : kv.any (fun e => e.1 == key) = false) :
    (kv ++ [(key, value)]).lookup key = some value := by
  induction kv with
  | nil => simp [List.lookup]
  | cons e rest ih =>
    obtain ⟨k, v⟩ := e
    have h1 : ¬ k = key := by
      intro he
      simp [he] at h
    have hne : (key == k) = false := by
      simpa using fun hk => h1 hk.symm
    have hrest : rest.any (fun e => e.1 == key) = false := by
      simp only [List.any_cons, Bool.or_eq_false_iff] at h
      exact h.2
    simp only [List.cons_append, List.lookup, hne]
    exact ih hrest

theorem lookup_setEntry (kv : List (String × String)) (key value : String) :
    (setEntry kv key value).lookup key = some value := by
  unfold setEntry
  by_cases h : kv.any (fun e => e.1 == key) = true
  · rw [if_pos h]
    exact lookup_map_set kv key value h
  · rw [if_neg h]
    exact lookup_append_new kv key value (by rw [Bool.not_eq_true] at h; exact h)

/-! ## The theme controller -/

/-- What the toggle listener does to the marker and to an accessible storage. -/
theorem themeClick_entries (cl : DOMTokenList) (t g : Option Element)
    (i : Option InputElement) (kv : List (String × String)) :
    themeClick ⟨cl, t, g, i, .entries kv⟩ =
      (⟨cl.toggle "dark-theme", t, g, i,
        .entries (setEntry kv "theme"
          (if (cl.toggle "dark-theme").has "dark-theme" then "dark" else "light"))⟩, none) := by
  simp [themeClick, Storage.setItem]

theorem themeClick_dark (cl : DOMTokenList) (t g : Option Element)
    (i : Option InputElement) (kv : List (String × String)) :
    (themeClick ⟨cl, t, g, i, .entries kv⟩).1.dark = !cl.has "dark-theme" := by
  rw [themeClick_entries]
  simp [Document.dark, has_toggle_self]

theorem themeClick_theme (cl : DOMTokenList) (t g : Option Element)
    (i : Option InputElement) (kv : List (String × String)) :
    (themeClick ⟨cl, t, g, i, .entries kv⟩).1.theme =
      some (if cl.has "dark-theme" then "light" else "dark") := by
  rw [themeClick_entries]
  simp only [Document.theme, lookup_setEntry, has_toggle_self]
  cases cl.has "dark-theme" <;> simp

theorem clickToggle_single (cl : DOMTokenList) (g : Option Element)
    (i : Option InputElement) (s : Storage) :
    clickToggle ⟨cl, some ⟨[.themeClick]⟩, g, i, s⟩ =
      (themeClick ⟨cl, some ⟨[.themeClick]⟩, g, i, s⟩).1 := by
  simp [clickToggle, dispatch, runListener]

theorem clickToggle_double (cl : DOMTokenList) (g : Option Element)
    (i : Option InputElement) (s : Storage) :
    clickToggle ⟨cl, some ⟨[.themeClick, .themeClick]⟩, g, i, s⟩ =
      (themeClick (themeClick ⟨cl, some ⟨[.themeClick, .themeClick]⟩, g, i, s⟩).1).1 := by
  simp [clickToggle, dispatch, runListener]

theorem themeInit_entries (cl : DOMTokenList) (t g : Option Element)
    (i : Option InputElement) (kv : List (String × String)) :
    themeInit ⟨cl, t, g, i, .entries kv⟩ =
      (⟨if kv.lookup "theme" = some "dark" then cl.add "dark-theme" else cl,
        t.map (fun el => el.addEventListener .themeClick), g, i, .entries kv⟩, none) := by
  cases t <;> simp [themeInit, Storage.getItem]

/-! ## Claims on the theme controller -/

/-- C1: from any state (marker present or absent, any stored entries) one click on the
wired toggle flips the presence of the dark-theme marker and leaves the stored theme
naming the new state: it is "light" when the marker was present and "dark" when it was
absent. -/
theorem click_flips_marker_and_persists (cl : DOMTokenList) (g : Option Element)
    (i : Option InputElement) (kv : List (String × String)) :
    (clickToggle ⟨cl, some ⟨[.themeClick]⟩, g, i, .entries kv⟩).dark
        = !(Document.dark ⟨cl, some ⟨[.themeClick]⟩, g, i, .entries kv⟩) ∧
    (clickToggle ⟨cl, some ⟨[.themeClick]⟩, g, i, .entries kv⟩).theme
        = some (if Document.dark ⟨cl, some ⟨[.themeClick]⟩, g, i, .entries kv⟩
            then "light" else "dark") := by
  rw [clickToggle_single]
  exact ⟨themeClick_dark cl _ g i kv, themeClick_theme cl _ g i kv⟩

/-- C2, at a first visit: with the marker absent and nothing stored, two clicks leave
the marker absent but the stored theme is "light", not absent as before. -/
theorem double_click_changes_storage :
    Document.theme ⟨[], some ⟨[.themeClick]⟩, none, none, .entries []⟩ = none ∧
    (clickToggle (clickToggle ⟨[], some ⟨[.themeClick]⟩, none, none, .entries []⟩)).theme
      = some "light" ∧
    (clickToggle (clickToggle ⟨[], some ⟨[.themeClick]⟩, none, none, .entries []⟩)).theme
      ≠ Document.theme ⟨[], some ⟨[.themeClick]⟩, none, none, .entries []⟩ := by
  decide

/-- C2 (amended): two clicks restore the presence of the marker, and the stored theme
then names that state ("dark" when the marker is present, "light" otherwise); it equals
the value stored before exactly when that value already named the marker state. -/
theorem double_click_restores_marker (cl : DOMTokenList) (g : Option Element)
    (i : Option InputElement) (kv : List (String × String)) :
    (clickToggle (clickToggle ⟨cl, some ⟨[.themeClick]⟩, g, i, .entries kv⟩)).dark
        = Document.dark ⟨cl, some ⟨[.themeClick]⟩, g, i, .entries kv⟩ ∧
    (clickToggle (clickToggle ⟨cl, some ⟨[.themeClick]⟩, g, i, .entries kv⟩)).theme
        = some (if Document.dark ⟨cl, some ⟨[.themeClick]⟩, g, i, .entries kv⟩
            then "dark" else "light") ∧
    ((clickToggle (clickToggle ⟨cl, some ⟨[.themeClick]⟩, g, i, .entries kv⟩)).theme
        = Document.theme ⟨cl, some ⟨[.themeClick]⟩, g, i, .entries kv⟩ ↔
      Document.theme ⟨cl, some ⟨[.themeClick]⟩, g, i, .entries kv⟩
        = some (if Document.dark ⟨cl, some ⟨[.themeClick]⟩, g, i, .entries kv⟩
            then "dark" else "light")) := by
  have h1 : clickToggle ⟨cl, some ⟨[.themeClick]⟩, g, i, .entries kv⟩ =
      ⟨cl.toggle "dark-theme", some ⟨[.themeClick]⟩, g, i,
        .entries (setEntry kv "theme"
          (if (cl.toggle "dark-theme").has "dark-theme" then "dark" else "light"))⟩ := by
    rw [clickToggle_single, themeClick_entries]
  rw [h1, clickToggle_single]
  have hd := themeClick_dark (cl.toggle "dark-theme") (some ⟨[.themeClick]⟩) g i
    (setEntry kv "theme"
      (if (cl.toggle "dark-theme").has "dark-theme" then "dark" else "light"))
  have ht := themeClick_theme (cl.toggle "dark-theme") (some ⟨[.themeClick]⟩) g i
    (setEntry kv "theme"
      (if (cl.toggle "dark-theme").has "dark-theme" then "dark" else "light"))
  rw [hd, ht, has_toggle_self]
  simp only [Document.dark, Document.theme]
  by_cases hx : cl.has "dark-theme" = true
  · simp [hx, eq_comm]
  · rw [Bool.not_eq_true] at hx
    simp [hx, eq_comm]

/-- C3: after a click, initialization of a freshly loaded page (root without the marker)
with the storage that the click left raises nothing and ends with the marker present
exactly when the stored value is "dark" and absent exactly when it is "light"; that is
the marker state the page had right after the click. -/
theorem reload_matches_last_write (cl fresh : DOMTokenList) (g t' g' : Option Element)
    (i i' : Option InputElement) (kv : List (String × String))
    (hfresh : fresh.has "dark-theme" = false) :
    (themeInit ⟨fresh, t', g', i',
      (clickToggle ⟨cl, some ⟨[.themeClick]⟩, g, i, .entries kv⟩).localStorage⟩).2 = none ∧
    (themeInit ⟨fresh, t', g', i',
      (clickToggle ⟨cl, some ⟨[.themeClick]⟩, g, i, .entries kv⟩).localStorage⟩).1.dark
        = (clickToggle ⟨cl, some ⟨[.themeClick]⟩, g, i, .entries kv⟩).dark ∧
    ((themeInit ⟨fresh, t', g', i',
      (clickToggle ⟨cl, some ⟨[.themeClick]⟩, g, i, .entries kv⟩).localStorage⟩).1.dark = true
        ↔ (clickToggle ⟨cl, some ⟨[.themeClick]⟩, g, i, .entries kv⟩).theme = some "dark") ∧
    ((themeInit ⟨fresh, t', g', i',
      (clickToggle ⟨cl, some ⟨[.themeClick]⟩, g, i, .entries kv⟩).localStorage⟩).1.dark = false
        ↔ (clickToggle ⟨cl, some ⟨[.themeClick]⟩, g, i, .entries kv⟩).theme = some "light") := by
  rw [clickToggle_single, themeClick_entries]
  simp only [themeInit_entries, Document.dark, Document.theme, lookup_setEntry,
    has_toggle_self]
  by_cases hx : cl.has "dark-theme" = true
  · simp [hx, hfresh]
  · rw [Bool.not_eq_true] at hx
    simp [hx, has_add_self]

/-- C3 at a concrete page: the first-visit page is clicked once and reloaded with an
empty class list. -/
theorem reload_matches_last_write_witness :
    (themeInit ⟨[], some ⟨[]⟩, none, none,
      (clickToggle ⟨[], some ⟨[.themeClick]⟩, none, none, .entries []⟩).localStorage⟩).2 = none ∧
    (themeInit ⟨[], some ⟨[]⟩, none, none,
      (clickToggle ⟨[], some ⟨[.themeClick]⟩, none, none, .entries []⟩).localStorage⟩).1.dark
        = (clickToggle ⟨[], some ⟨[.themeClick]⟩, none, none, .entries []⟩).dark ∧
    ((themeInit ⟨[], some ⟨[]⟩, none, none,
      (clickToggle ⟨[], some ⟨[.themeClick]⟩, none, none, .entries []⟩).localStorage⟩).1.dark = true
        ↔ (clickToggle ⟨[], some ⟨[.themeClick]⟩, none, none, .entries []⟩).theme = some "dark") ∧
    ((themeInit ⟨[], some ⟨[]⟩, none, none,
      (clickToggle ⟨[], some ⟨[.themeClick]⟩, none, none, .entries []⟩).localStorage⟩).1.dark = false
        ↔ (clickToggle ⟨[], some ⟨[.themeClick]⟩, none, none, .entries []⟩).theme = some "light") :=
  reload_matches_last_write [] [] none (some ⟨[]⟩) none none none [] (by decide)

/-- C4: on a root without the marker and with an accessible storage, initialization
raises nothing, ends with the marker present if and only if the stored value is exactly
"dark", leaves the class list as it was for every other content, and does not change the
storage. -/
theorem init_marker_iff_stored_dark (cl : DOMTokenList) (t g : Option Element)
    (i : Option InputElement) (kv : List (String × String))
    (hcl : cl.has "dark-theme" = false) :
    (themeInit ⟨cl, t, g, i, .entries kv⟩).2 = none ∧
    ((themeInit ⟨cl, t, g, i, .entries kv⟩).1.dark = true ↔ kv.lookup "theme" = some "dark") ∧
    (kv.lookup "theme" ≠ some "dark" → (themeInit ⟨cl, t, g, i, .entries kv⟩).1.body = cl) ∧
    (themeInit ⟨cl, t, g, i, .entries kv⟩).1.localStorage = .entries kv := by
  rw [themeInit_entries]
  by_cases h : kv.lookup "theme" = some "dark"
  · simp [h, Document.dark, has_add_self]
  · simp [h, Document.dark, hcl]

/-- C4 at a concrete storage: the stored value "Dark" is not "dark". -/
theorem init_marker_iff_stored_dark_witness :
    (themeInit ⟨["page"], some ⟨[]⟩, none, none, .entries [("theme", "Dark")]⟩).2 = none ∧
    ((themeInit ⟨["page"], some ⟨[]⟩, none, none, .entries [("theme", "Dark")]⟩).1.dark = true
      ↔ [("theme", "Dark")].lookup "theme" = some "dark") ∧
    ([("theme", "Dark")].lookup "theme" ≠ some "dark" →
      (themeInit ⟨["page"], some ⟨[]⟩, none, none, .entries [("theme", "Dark")]⟩).1.body
        = ["page"]) ∧
    (themeInit ⟨["page"], some ⟨[]⟩, none, none, .entries [("theme", "Dark")]⟩).1.localStorage
      = .entries [("theme", "Dark")] :=
  init_marker_iff_stored_dark ["page"] (some ⟨[]⟩) none none [("theme", "Dark")] (by decide)

/-- C6, with the toggle absent and the storage denied: theme initialization ends with
the exception of the storage read. -/
theorem init_without_toggle_throws_on_denied_storage :
    (themeInit ⟨[], none, none, none, .denied⟩).2 = some .securityError := by
  decide

/-- C6 (amended): with the theme toggle absent, theme initialization attaches no click
listener (the toggle stays absent and the generator trigger keeps its listeners)
whatever the storage is; it raises nothing when the storage read succeeds, and with the
storage denied it ends with the exception of that read, the page left as it was. With
the generator trigger absent, or the text field absent, generator initialization changes
nothing at all. -/
theorem missing_elements_no_listener (cl : DOMTokenList) (t g : Option Element)
    (i : Option InputElement) (s : Storage) (kv : List (String × String)) :
    (themeInit ⟨cl, none, g, i, s⟩).1.themeToggle = none ∧
    (themeInit ⟨cl, none, g, i, s⟩).1.generateName = g ∧
    (themeInit ⟨cl, none, g, i, .entries kv⟩).2 = none ∧
    themeInit ⟨cl, none, g, i, .denied⟩ = (⟨cl, none, g, i, .denied⟩, some .securityError) ∧
    generatorInit ⟨cl, t, none, i, s⟩ = ⟨cl, t, none, i, s⟩ ∧
    generatorInit ⟨cl, t, g, none, s⟩ = ⟨cl, t, g, none, s⟩ := by
  refine ⟨?_, ?_, ?_, ?_, ?_, ?_⟩
  · cases s <;> simp [themeInit, Storage.getItem]
  · cases s <;> simp [themeInit, Storage.getItem]
  · simp [themeInit, Storage.getItem]
  · simp [themeInit, Storage.getItem]
  · simp [generatorInit]
  · cases g <;> simp [generatorInit]

/-- C7, with the storage denied: initialization ends with the exception of the storage
read and the toggle, although present, has no listener. -/
theorem init_throws_on_denied_storage :
    (themeInit ⟨[], some ⟨[]⟩, none, none, .denied⟩).2 = some .securityError ∧
    (themeInit ⟨[], some ⟨[]⟩, none, none, .denied⟩).1.themeToggle = some ⟨[]⟩ := by
  decide

/-- C7 (amended): when reading the stored theme throws, theme initialization ends with
that exception and leaves the page as it was, so the marker is not applied and the
toggle is not wired; when the read returns nothing, initialization raises nothing, leaves
the class list as it was and wires the toggle when it is present. -/
theorem init_denied_or_empty_storage (cl : DOMTokenList) (t g : Option Element)
    (i : Option InputElement) (kv : List (String × String))
    (hkv : kv.lookup "theme" = none) :
    themeInit ⟨cl, t, g, i, .denied⟩ = (⟨cl, t, g, i, .denied⟩, some .securityError) ∧
    themeInit ⟨cl, t, g, i, .entries kv⟩ =
      (⟨cl, t.map (fun el => el.addEventListener .themeClick), g, i, .entries kv⟩, none) := by
  constructor
  · simp [themeInit, Storage.getItem]
  · rw [themeInit_entries]
    simp [hkv]

/-- C7 (amended) on a page with the toggle and another stored key. -/
theorem init_denied_or_empty_storage_witness :
    themeInit ⟨["page"], some ⟨[]⟩, none, none, .denied⟩ =
      (⟨["page"], some ⟨[]⟩, none, none, .denied⟩, some .securityError) ∧
    themeInit ⟨["page"], some ⟨[]⟩, none, none, .entries [("lang", "en")]⟩ =
      (⟨["page"], (some ⟨[]⟩ : Option Element).map (fun el => el.addEventListener .themeClick),
        none, none, .entries [("lang", "en")]⟩, none) :=
  init_denied_or_empty_storage ["page"] (some ⟨[]⟩) none none [("lang", "en")] (by decide)

/-- C9: running theme initialization twice on a page with the toggle present appends two
click listeners to it; a click on a toggle carrying the two listeners runs both, the
first flipping the marker and the second flipping it back, so from any state the
presence of the marker after the click is what it was before, and the stored theme names
that state: "dark" when the marker is present, "light" otherwise. -/
theorem double_init_click_keeps_marker (cl : DOMTokenList) (ls : List Listener)
    (g : Option Element) (i : Option InputElement) (kv : List (String × String)) :
    (themeInit ⟨cl, some ⟨ls⟩, g, i, .entries kv⟩).2 = none ∧
    (themeInit (themeInit ⟨cl, some ⟨ls⟩, g, i, .entries kv⟩).1).2 = none ∧
    (themeInit (themeInit ⟨cl, some ⟨ls⟩, g, i, .entries kv⟩).1).1.themeToggle
      = some ⟨ls ++ [.themeClick, .themeClick]⟩ ∧
    clickToggle ⟨cl, some ⟨[.themeClick, .themeClick]⟩, g, i, .entries kv⟩
      = (themeClick
          (themeClick ⟨cl, some ⟨[.themeClick, .themeClick]⟩, g, i, .entries kv⟩).1).1 ∧
    (themeClick ⟨cl, some ⟨[.themeClick, .themeClick]⟩, g, i, .entries kv⟩).1.dark
      = !(Document.dark ⟨cl, some ⟨[.themeClick, .themeClick]⟩, g, i, .entries kv⟩) ∧
    (clickToggle ⟨cl, some ⟨[.themeClick, .themeClick]⟩, g, i, .entries kv⟩).dark
      = Document.dark ⟨cl, some ⟨[.themeClick, .themeClick]⟩, g, i, .entries kv⟩ ∧
    (clickToggle ⟨cl, some ⟨[.themeClick, .themeClick]⟩, g, i, .entries kv⟩).theme
      = some (if Document.dark ⟨cl, some ⟨[.themeClick, .themeClick]⟩, g, i, .entries kv⟩
          then "dark" else "light") := by
  refine ⟨?_, ?_, ?_, clickToggle_double cl g i _, themeClick_dark cl _ g i kv, ?_, ?_⟩
  · rw [themeInit_entries]
  · simp only [themeInit_entries]
  · simp only [themeInit_entries, Option.map_some', Element.addEventListener,
      List.append_assoc, List.singleton_append]
  · rw [clickToggle_double, themeClick_entries, themeClick_dark, has_toggle_self]
    simp [Document.dark]
  · rw [clickToggle_double, themeClick_entries, themeClick_theme, has_toggle_self]
    simp only [Document.dark]
    by_cases hx : cl.has "dark-theme" = true
    · simp [hx]
    · rw [Bool.not_eq_true] at hx
      simp [hx]

/-! ## Lemmas on rounding -/

theorem roundHalfEven_le (q : ℚ) (N : ℤ) (h : q ≤ (N : ℚ)) : roundHalfEven q ≤ N := by
  have hfq : (⌊q⌋ : ℚ) ≤ q := Int.floor_le q
  have hf : ⌊q⌋ ≤ N := by exact_mod_cast hfq.trans h
  unfold roundHalfEven
  simp only
  split_ifs with h1 h2 h3
  · exact hf
  · have h4 : (⌊q⌋ : ℚ) < (N : ℚ) := by linarith
    have h5 : ⌊q⌋ < N := by exact_mod_cast h4
    omega
  · exact hf
  · have h4 : (⌊q⌋ : ℚ) < (N : ℚ) := by linarith
    have h5 : ⌊q⌋ < N := by exact_mod_cast h4
    omega

theorem le_roundHalfEven (q : ℚ) (N : ℤ) (h : (N : ℚ) ≤ q) : N ≤ roundHalfEven q := by
  have hf : N ≤ ⌊q⌋ := Int.le_floor.2 h
  unfold roundHalfEven
  simp only
  split_ifs <;> omega

theorem roundHalfEven_intCast (N : ℤ) : roundHalfEven (N : ℚ) = N :=
  le_antisymm (roundHalfEven_le _ N le_rfl) (le_roundHalfEven _ N le_rfl)

theorem roundHalfEven_le_add_half (q : ℚ) : (roundHalfEven q : ℚ) ≤ q + 1 / 2 := by
  have hfq : (⌊q⌋ : ℚ) ≤ q := Int.floor_le q
  unfold roundHalfEven
  simp only
  split_ifs with h1 h2 h3
  · linarith
  · push_cast; linarith
  · linarith
  · push_cast; linarith

theorem roundHalfEven_of_near (q : ℚ) (n : ℤ) (h1 : (n : ℚ) - 1 / 2 < q)
    (h2 : q < (n : ℚ) + 1 / 2) : roundHalfEven q = n := by
  have hfq : (⌊q⌋ : ℚ) ≤ q := Int.floor_le q
  have hqf : q < (⌊q⌋ : ℚ) + 1 := Int.lt_floor_add_one q
  have hlo : n - 1 ≤ ⌊q⌋ := by
    have : ((n - 1 : ℤ) : ℚ) < (⌊q⌋ : ℚ) + 1 := by push_cast; linarith
    have : n - 1 < ⌊q⌋ + 1 := by exact_mod_cast this
    omega
  have hhi : ⌊q⌋ ≤ n := by
    have : (⌊q⌋ : ℚ) < ((n + 1 : ℤ) : ℚ) := by push_cast; linarith
    have : ⌊q⌋ < n + 1 := by exact_mod_cast this
    omega
  rcases (by omega : ⌊q⌋ = n - 1 ∨ ⌊q⌋ = n) with hc | hc
  · have hcq : (⌊q⌋ : ℚ) = (n : ℚ) - 1 := by rw [hc]; push_cast; ring
    unfold roundHalfEven
    simp only
    rw [if_neg (by rw [hcq]; linarith), if_pos (by rw [hcq]; linarith), hc]
    ring
  · unfold roundHalfEven
    simp only
    rw [if_pos (by rw [hc]; linarith), hc]

theorem roundHalfEven_tie_odd (q : ℚ) (f : ℤ) (h : q = (f : ℚ) + 1 / 2) (hodd : f % 2 = 1) :
    roundHalfEven q = f + 1 := by
  have hf : ⌊q⌋ = f := by
    rw [Int.floor_eq_iff]
    constructor <;> linarith
  unfold roundHalfEven
  simp only
  rw [hf, if_neg (by rw [h]; norm_num), if_neg (by rw [h]; norm_num), if_neg (by omega)]

theorem two_zpow_pos (e : ℤ) : (0 : ℚ) < 2 ^ e := zpow_pos (by norm_num) e

theorem two_zpow_mono {a b : ℤ} (h : a ≤ b) : (2 : ℚ) ^ a ≤ 2 ^ b :=
  zpow_le_zpow_right₀ (by norm_num) h

/-- A power of two with a natural exponent is an integer. -/
theorem two_zpow_eq_intCast (k : ℤ) (hk : 0 ≤ k) : (2 : ℚ) ^ k = ((2 ^ k.toNat : ℤ) : ℚ) := by
  obtain ⟨n, rfl⟩ := Int.eq_ofNat_of_zero_le hk
  simp

theorem zpow_log_le {x : ℚ} (hx : 0 < x) : (2 : ℚ) ^ Int.log 2 x ≤ x := by
  have := Int.zpow_log_le_self (b := 2) (by norm_num) hx
  simpa using this

theorem lt_zpow_log_succ (x : ℚ) : x < (2 : ℚ) ^ (Int.log 2 x + 1) := by
  have := Int.lt_zpow_succ_log_self (b := 2) (by norm_num) x
  simpa using this

theorem log_lt_of_lt_zpow {x : ℚ} (hx : 0 < x) (k : ℤ) (h : x < (2 : ℚ) ^ k) :
    Int.log 2 x < k := by
  have := (Int.lt_zpow_iff_log_lt (b := 2) (by norm_num) (x := k) hx).1 (by simpa using h)
  exact this

theorem le_log_of_zpow_le {x : ℚ} (hx : 0 < x) (k : ℤ) (h : (2 : ℚ) ^ k ≤ x) :
    k ≤ Int.log 2 x := by
  have := (Int.zpow_le_iff_le_log (b := 2) (by norm_num) (x := k) hx).1 (by simpa using h)
  exact this

theorem log_eq_of_bracket {x : ℚ} (k : ℤ) (h1 : (2 : ℚ) ^ k ≤ x) (h2 : x < (2 : ℚ) ^ (k + 1)) :
    Int.log 2 x = k := by
  have hx : 0 < x := lt_of_lt_of_le (two_zpow_pos k) h1
  have := log_lt_of_lt_zpow hx (k + 1) h2
  have := le_log_of_zpow_le hx k h1
  omega

theorem ulpExponent_of_pos {x : ℚ} (hx : 0 < x) :
    ulpExponent x = max (Int.log 2 x - 52) (-1074) := by
  unfold ulpExponent
  rw [abs_of_pos hx]

theorem ulpExponent_mono {x y : ℚ} (hx : 0 < x) (h : x ≤ y) :
    ulpExponent x ≤ ulpExponent y := by
  rw [ulpExponent_of_pos hx, ulpExponent_of_pos (lt_of_lt_of_le hx h)]
  have := Int.log_mono_right (b := 2) hx h
  omega

theorem lt_zpow_ulpExponent {x : ℚ} (hx : 0 < x) : x < (2 : ℚ) ^ (ulpExponent x + 53) := by
  refine lt_of_lt_of_le (lt_zpow_log_succ x) (two_zpow_mono ?_)
  rw [ulpExponent_of_pos hx]
  omega

theorem ulpExponent_of_bracket {x : ℚ} (k : ℤ) (hk : -1022 ≤ k) (h1 : (2 : ℚ) ^ k ≤ x)
    (h2 : x < (2 : ℚ) ^ (k + 1)) : ulpExponent x = k - 52 := by
  have hx : 0 < x := lt_of_lt_of_le (two_zpow_pos k) h1
  rw [ulpExponent_of_pos hx, log_eq_of_bracket k h1 h2]
  omega

theorem roundDouble_zero : roundDouble 0 = 0 := by
  simp [roundDouble, roundHalfEven]

theorem roundDouble_nonneg {x : ℚ} (hx : 0 ≤ x) : 0 ≤ roundDouble x := by
  unfold roundDouble
  have h2 := two_zpow_pos (ulpExponent x)
  have : (0 : ℤ) ≤ roundHalfEven (x / 2 ^ ulpExponent x) :=
    le_roundHalfEven _ 0 (by simpa using div_nonneg hx h2.le)
  have : (0 : ℚ) ≤ (roundHalfEven (x / 2 ^ ulpExponent x) : ℚ) := by exact_mod_cast this
  positivity

/-- Rounding never crosses a double from below. -/
theorem roundDouble_le {x d : ℚ} (hx : 0 ≤ x) (hxd : x ≤ d) (hd : isDouble d) :
    roundDouble x ≤ d := by
  rcases hx.eq_or_lt with h0 | hpos
  · rw [← h0, roundDouble_zero]; exact h0 ▸ hxd
  have he := ulpExponent_mono hpos hxd
  have h2x := two_zpow_pos (ulpExponent x)
  obtain ⟨k, hk⟩ : ∃ k : ℤ, ulpExponent d = ulpExponent x + k ∧ 0 ≤ k :=
    ⟨ulpExponent d - ulpExponent x, by omega, by omega⟩
  have hpow : (2 : ℚ) ^ ulpExponent d = ((2 ^ k.toNat : ℤ) : ℚ) * 2 ^ ulpExponent x := by
    rw [hk.1, zpow_add₀ (by norm_num), two_zpow_eq_intCast k hk.2, mul_comm]
  have hd' : d = ((roundHalfEven (d / 2 ^ ulpExponent d) * 2 ^ k.toNat : ℤ) : ℚ)
      * 2 ^ ulpExponent x := by
    have h : (roundHalfEven (d / 2 ^ ulpExponent d) : ℚ) * 2 ^ ulpExponent d = d := hd
    rw [Int.cast_mul, mul_assoc, ← hpow]
    exact h.symm
  have hq : x / 2 ^ ulpExponent x
      ≤ ((roundHalfEven (d / 2 ^ ulpExponent d) * 2 ^ k.toNat : ℤ) : ℚ) := by
    rw [div_le_iff₀ h2x, ← hd']
    exact hxd
  have := roundHalfEven_le _ _ hq
  have hc : (roundHalfEven (x / 2 ^ ulpExponent x) : ℚ)
      ≤ ((roundHalfEven (d / 2 ^ ulpExponent d) * 2 ^ k.toNat : ℤ) : ℚ) := by
    exact_mod_cast this
  unfold roundDouble
  calc (roundHalfEven (x / 2 ^ ulpExponent x) : ℚ) * 2 ^ ulpExponent x
      ≤ ((roundHalfEven (d / 2 ^ ulpExponent d) * 2 ^ k.toNat : ℤ) : ℚ)
          * 2 ^ ulpExponent x := mul_le_mul_of_nonneg_right hc h2x.le
    _ = d := hd'.symm

/-- A positive number is at least the power of two below it after rounding. -/
theorem zpow_log_le_roundDouble {x : ℚ} (hx : (2 : ℚ) ^ (-1022 : ℤ) ≤ x) :
    (2 : ℚ) ^ Int.log 2 x ≤ roundDouble x := by
  have hpos : 0 < x := lt_of_lt_of_le (two_zpow_pos _) hx
  have hL : -1022 ≤ Int.log 2 x := le_log_of_zpow_le hpos _ hx
  have he : ulpExponent x = Int.log 2 x - 52 := by
    rw [ulpExponent_of_pos hpos]; omega
  have h2 := two_zpow_pos (ulpExponent x)
  have hq : ((2 ^ 52 : ℤ) : ℚ) ≤ x / 2 ^ ulpExponent x := by
    rw [le_div_iff₀ h2, he]
    have : ((2 ^ 52 : ℤ) : ℚ) = (2 : ℚ) ^ (52 : ℤ) := by norm_num
    rw [this, ← zpow_add₀ (by norm_num)]
    have : (52 : ℤ) + (Int.log 2 x - 52) = Int.log 2 x := by ring
    rw [this]
    exact zpow_log_le hpos
  have hr := le_roundHalfEven _ _ hq
  have hc : ((2 ^ 52 : ℤ) : ℚ) ≤ (roundHalfEven (x / 2 ^ ulpExponent x) : ℚ) := by
    exact_mod_cast hr
  unfold roundDouble
  calc (2 : ℚ) ^ Int.log 2 x = ((2 ^ 52 : ℤ) : ℚ) * 2 ^ ulpExponent x := by
        rw [he]
        have : ((2 ^ 52 : ℤ) : ℚ) = (2 : ℚ) ^ (52 : ℤ) := by norm_num
        rw [this, ← zpow_add₀ (by norm_num)]
        congr 1
        ring
    _ ≤ (roundHalfEven (x / 2 ^ ulpExponent x) : ℚ) * 2 ^ ulpExponent x :=
        mul_le_mul_of_nonneg_right hc h2.le

/-- Rounding never crosses a double from above. -/
theorem le_roundDouble {x d : ℚ} (hd0 : 0 ≤ d) (hdx : d ≤ x) (hd : isDouble d) :
    d ≤ roundDouble x := by
  rcases hd0.eq_or_lt with h0 | hpos
  · rw [← h0]; exact roundDouble_nonneg (hd0.trans hdx)
  have hxpos : 0 < x := lt_of_lt_of_le hpos hdx
  have he := ulpExponent_mono hpos hdx
  have h2x := two_zpow_pos (ulpExponent x)
  have h : (roundHalfEven (d / 2 ^ ulpExponent d) : ℚ) * 2 ^ ulpExponent d = d := hd
  rcases he.eq_or_lt with heq | hlt
  · have hq : ((roundHalfEven (d / 2 ^ ulpExponent d) : ℤ) : ℚ) ≤ x / 2 ^ ulpExponent x := by
      rw [le_div_iff₀ h2x, ← heq, h]
      exact hdx
    have hr := le_roundHalfEven _ _ hq
    have hc : (roundHalfEven (d / 2 ^ ulpExponent d) : ℚ)
        ≤ (roundHalfEven (x / 2 ^ ulpExponent x) : ℚ) := by exact_mod_cast hr
    unfold roundDouble
    calc d = (roundHalfEven (d / 2 ^ ulpExponent d) : ℚ) * 2 ^ ulpExponent x := by
          rw [← heq, h]
      _ ≤ (roundHalfEven (x / 2 ^ ulpExponent x) : ℚ) * 2 ^ ulpExponent x :=
          mul_le_mul_of_nonneg_right hc h2x.le
  · have hex : ulpExponent x = Int.log 2 x - 52 := by
      have h1 := ulpExponent_of_pos hxpos
      have h2 := ulpExponent_of_pos hpos
      omega
    have hLx : -1022 ≤ Int.log 2 x := by
      have h2 := ulpExponent_of_pos hpos
      omega
    have hx22 : (2 : ℚ) ^ (-1022 : ℤ) ≤ x :=
      (two_zpow_mono hLx).trans (zpow_log_le hxpos)
    have hdlt : d < (2 : ℚ) ^ Int.log 2 x :=
      lt_of_lt_of_le (lt_zpow_ulpExponent hpos) (two_zpow_mono (by omega))
    exact (hdlt.trans_le (zpow_log_le_roundDouble hx22)).le

/-- Every `n * 2 ^ e` with `n < 2 ^ 53` and `-1074 ≤ e` is a double. -/
theorem isDouble_dyadic (n : ℕ) (e : ℤ) (hn : n < 2 ^ 53) (he : -1074 ≤ e) :
    isDouble ((n : ℚ) * 2 ^ e) := by
  rcases Nat.eq_zero_or_pos n with h0 | hpos
  · subst h0
    simp [isDouble, roundDouble_zero]
  have h2e := two_zpow_pos e
  have hx : (0 : ℚ) < (n : ℚ) * 2 ^ e := by positivity
  have hlt : (n : ℚ) * 2 ^ e < (2 : ℚ) ^ (e + 53) := by
    rw [zpow_add₀ (by norm_num), mul_comm ((2 : ℚ) ^ e)]
    have : (n : ℚ) < (2 : ℚ) ^ (53 : ℤ) := by
      have h53 : ((2 ^ 53 : ℕ) : ℚ) = (2 : ℚ) ^ (53 : ℤ) := by norm_num
      rw [← h53]
      exact_mod_cast hn
    exact mul_lt_mul_of_pos_right this h2e
  have hL := log_lt_of_lt_zpow hx _ hlt
  have hu : ulpExponent ((n : ℚ) * 2 ^ e) ≤ e := by
    rw [ulpExponent_of_pos hx]; omega
  obtain ⟨k, hk⟩ : ∃ k : ℤ, e = ulpExponent ((n : ℚ) * 2 ^ e) + k ∧ 0 ≤ k :=
    ⟨e - ulpExponent ((n : ℚ) * 2 ^ e), by omega, by omega⟩
  have h2u := two_zpow_pos (ulpExponent ((n : ℚ) * 2 ^ e))
  have hq : (n : ℚ) * 2 ^ e / 2 ^ ulpExponent ((n : ℚ) * 2 ^ e)
      = (((n : ℤ) * 2 ^ k.toNat : ℤ) : ℚ) := by
    rw [div_eq_iff h2u.ne']
    nth_rewrite 1 [hk.1]
    rw [zpow_add₀ (by norm_num), two_zpow_eq_intCast k hk.2]
    push_cast
    ring
  unfold isDouble roundDouble
  rw [hq, roundHalfEven_intCast, ← hq]
  exact div_mul_cancel₀ _ h2u.ne'

theorem isDouble_natCast (n : ℕ) (hn : n < 2 ^ 53) : isDouble (n : ℚ) := by
  have := isDouble_dyadic n 0 hn (by norm_num)
  simpa using this

/-- Rounding in the normal range moves a number up by at most half a unit in the last
place. -/
theorem roundDouble_le_add {x : ℚ} (hx : (2 : ℚ) ^ (-1022 : ℤ) ≤ x) :
    roundDouble x ≤ x + (2 : ℚ) ^ (Int.log 2 x - 53) := by
  have hpos : 0 < x := lt_of_lt_of_le (two_zpow_pos _) hx
  have hL : -1022 ≤ Int.log 2 x := le_log_of_zpow_le hpos _ hx
  have he : ulpExponent x = Int.log 2 x - 52 := by
    rw [ulpExponent_of_pos hpos]; omega
  have h2 := two_zpow_pos (ulpExponent x)
  have hr := roundHalfEven_le_add_half (x / 2 ^ ulpExponent x)
  have hhalf : (2 : ℚ) ^ (Int.log 2 x - 53) = 1 / 2 * 2 ^ ulpExponent x := by
    rw [he]
    have : Int.log 2 x - 53 = (-1 : ℤ) + (Int.log 2 x - 52) := by ring
    rw [this, zpow_add₀ (by norm_num)]
    norm_num
  unfold roundDouble
  calc (roundHalfEven (x / 2 ^ ulpExponent x) : ℚ) * 2 ^ ulpExponent x
      ≤ (x / 2 ^ ulpExponent x + 1 / 2) * 2 ^ ulpExponent x :=
        mul_le_mul_of_nonneg_right hr h2.le
    _ = x + (2 : ℚ) ^ (Int.log 2 x - 53) := by
        rw [hhalf, add_mul, div_mul_cancel₀ _ h2.ne']

/-- The relative form of `roundDouble_le_add`. -/
theorem roundDouble_le_mul {x : ℚ} (hx : (2 : ℚ) ^ (-1022 : ℤ) ≤ x) :
    roundDouble x ≤ x * (1 + (2 : ℚ) ^ (-53 : ℤ)) := by
  have hpos : 0 < x := lt_of_lt_of_le (two_zpow_pos _) hx
  have h1 := roundDouble_le_add hx
  have h2 : (2 : ℚ) ^ (Int.log 2 x - 53) ≤ x * (2 : ℚ) ^ (-53 : ℤ) := by
    have : Int.log 2 x - 53 = Int.log 2 x + (-53 : ℤ) := by ring
    rw [this, zpow_add₀ (by norm_num)]
    exact mul_le_mul_of_nonneg_right (zpow_log_le hpos) (two_zpow_pos _).le
  linarith

/-- The value of a rounding once the binade of the argument is known. -/
theorem roundDouble_of_bracket {x : ℚ} (k : ℤ) (hk : -1022 ≤ k) (h1 : (2 : ℚ) ^ k ≤ x)
    (h2 : x < (2 : ℚ) ^ (k + 1)) :
    roundDouble x = (roundHalfEven (x / 2 ^ (k - 52)) : ℚ) * 2 ^ (k - 52) := by
  unfold roundDouble
  rw [ulpExponent_of_bracket k hk h1 h2]

/-- A double below 1 is at most the largest double below 1. -/
theorem isDouble_lt_one {r : ℚ} (hd : isDouble r) (h1 : r < 1) :
    r ≤ 1 - (2 : ℚ) ^ (-53 : ℤ) := by
  by_cases hhalf : r < 1 / 2
  · have h53 : (2 : ℚ) ^ (-53 : ℤ) = 1 / 9007199254740992 := by norm_num
    rw [h53]
    linarith
  · rw [not_lt] at hhalf
    have hb := roundDouble_of_bracket (x := r) (-1) (by norm_num) (by norm_num; linarith)
      (by norm_num; exact h1)
    have h : roundDouble r = r := hd
    rw [hb] at h
    have hn : (roundHalfEven (r / 2 ^ ((-1 : ℤ) - 52)) : ℚ) < ((2 ^ 53 : ℤ) : ℚ) := by
      have h53 : (0 : ℚ) < 2 ^ ((-1 : ℤ) - 52) := two_zpow_pos _
      have : (roundHalfEven (r / 2 ^ ((-1 : ℤ) - 52)) : ℚ) * 2 ^ ((-1 : ℤ) - 52)
          < ((2 ^ 53 : ℤ) : ℚ) * 2 ^ ((-1 : ℤ) - 52) := by
        rw [h]
        norm_num
        linarith
      exact lt_of_mul_lt_mul_right this h53.le
    have hn' : roundHalfEven (r / 2 ^ ((-1 : ℤ) - 52)) ≤ 2 ^ 53 - 1 := by
      have : roundHalfEven (r / 2 ^ ((-1 : ℤ) - 52)) < 2 ^ 53 := by exact_mod_cast hn
      omega
    have hc : (roundHalfEven (r / 2 ^ ((-1 : ℤ) - 52)) : ℚ) ≤ ((2 ^ 53 - 1 : ℤ) : ℚ) := by
      exact_mod_cast hn'
    rw [← h]
    calc (roundHalfEven (r / 2 ^ ((-1 : ℤ) - 52)) : ℚ) * 2 ^ ((-1 : ℤ) - 52)
        ≤ ((2 ^ 53 - 1 : ℤ) : ℚ) * 2 ^ ((-1 : ℤ) - 52) :=
          mul_le_mul_of_nonneg_right hc (two_zpow_pos _).le
      _ = 1 - (2 : ℚ) ^ (-53 : ℤ) := by norm_num

/-- The rounded product of a double in [0,1) and 10 is in [0,10). -/
theorem roundDouble_mul_ten_range {r : ℚ} (hd : isDouble r) (h0 : 0 ≤ r) (h1 : r < 1) :
    0 ≤ roundDouble (r * 10) ∧ roundDouble (r * 10) < 10 := by
  refine ⟨roundDouble_nonneg (by linarith), ?_⟩
  have hr := isDouble_lt_one hd h1
  by_cases hsmall : r * 10 < (2 : ℚ) ^ (-1022 : ℤ)
  · have := roundDouble_le (x := r * 10) (d := 1) (by linarith)
      (hsmall.le.trans (by norm_num)) (by simpa using isDouble_natCast 1 (by norm_num))
    linarith
  · rw [not_lt] at hsmall
    have hpos : 0 < r * 10 := lt_of_lt_of_le (two_zpow_pos _) hsmall
    have hL : Int.log 2 (r * 10) < 4 :=
      log_lt_of_lt_zpow hpos 4 (by norm_num; linarith)
    have h2 : (2 : ℚ) ^ (Int.log 2 (r * 10) - 53) ≤ (2 : ℚ) ^ (-50 : ℤ) :=
      two_zpow_mono (by omega)
    have h3 := roundDouble_le_add hsmall
    have h4 : r * 10 + (2 : ℚ) ^ (-50 : ℤ) < 10 := by
      have : r * 10 ≤ (1 - (2 : ℚ) ^ (-53 : ℤ)) * 10 := by linarith
      have h5 : (1 - (2 : ℚ) ^ (-53 : ℤ)) * 10 + (2 : ℚ) ^ (-50 : ℤ) < 10 := by norm_num
      linarith
    linarith

/-! ## Lemmas on the word lists and the written name -/

theorem arrayGet_of_range (xs : List String) (i : ℤ) (h0 : 0 ≤ i)
    (h1 : i < (xs.length : ℤ)) :
    ∃ w, w ∈ xs ∧ arrayGet xs i = some w ∧ xs[i.toNat]? = some w := by
  have hlt : i.toNat < xs.length := by omega
  refine ⟨xs[i.toNat], List.getElem_mem _, ?_, ?_⟩
  · simp [arrayGet, h0, List.getElem?_eq_getElem hlt]
  · simp [List.getElem?_eq_getElem hlt]

theorem arrayGet_natCast (xs : List String) (k : ℕ) : arrayGet xs (k : ℤ) = xs[k]? := by
  simp [arrayGet]

/-- In a list without repetition, indexing returns the `k`-th word only at index `k`. -/
theorem arrayGet_eq_iff (xs : List String) (hxs : xs.Nodup) (i : ℤ) (k : ℕ)
    (hk : k < xs.length) : arrayGet xs i = xs[k]? ↔ i = (k : ℤ) := by
  constructor
  · intro h
    unfold arrayGet at h
    by_cases h0 : 0 ≤ i
    · rw [if_pos h0] at h
      have := (List.getElem?_inj hk hxs h.symm)
      omega
    · rw [if_neg h0, List.getElem?_eq_getElem hk] at h
      simp at h
  · intro h
    subst h
    exact arrayGet_natCast xs k

theorem adjectives_nodup : adjectives.Nodup := by decide

theorem nouns_nodup : nouns.Nodup := by decide

theorem adjectives_no_space : ∀ a ∈ adjectives, ' ' ∉ a.data := by decide

theorem nouns_no_space : ∀ n ∈ nouns, ' ' ∉ n.data := by decide

/-- Two words without a space are determined by their join with one space. -/
theorem join_inj (a a' b b' : List Char) (ha : ' ' ∉ a) (ha' : ' ' ∉ a')
    (h : a ++ ' ' :: b = a' ++ ' ' :: b') : a = a' ∧ b = b' := by
  induction a generalizing a' with
  | nil =>
    cases a' with
    | nil => simpa using h
    | cons c cs =>
      simp only [List.nil_append, List.cons_append, List.cons.injEq] at h
      exact absurd (by simp [← h.1]) ha'
  | cons c cs ih =>
    cases a' with
    | nil =>
      simp only [List.nil_append, List.cons_append, List.cons.injEq] at h
      exact absurd (by simp [h.1]) ha
    | cons c' cs' =>
      simp only [List.cons_append, List.cons.injEq] at h
      have := ih cs' (fun hm => ha (List.mem_cons_of_mem _ hm))
        (fun hm => ha' (List.mem_cons_of_mem _ hm)) h.2
      exact ⟨by rw [h.1, this.1], this.2⟩

theorem generatedName_inj (a a' n n' : String) (ha : ' ' ∉ a.data) (ha' : ' ' ∉ a'.data)
    (h : generatedName (some a) (some n) = generatedName (some a') (some n')) :
    a = a' ∧ n = n' := by
  have hd := congrArg String.data h
  simp only [generatedName, interpolate, String.data_append, List.append_assoc] at hd
  have hj := join_inj a.data a'.data n.data n'.data ha ha' (by simpa using hd)
  exact ⟨String.ext hj.1, String.ext hj.2⟩

theorem count_space_generatedName (a n : String) (ha : ' ' ∉ a.data) (hn : ' ' ∉ n.data) :
    (generatedName (some a) (some n)).data.count ' ' = 1 := by
  simp [generatedName, interpolate, List.count_eq_zero_of_not_mem ha,
    List.count_eq_zero_of_not_mem hn]

theorem clickGenerate_single (rand : ℕ → ℚ) (cl : DOMTokenList) (t : Option Element)
    (prev : String) (s : Storage) :
    clickGenerate rand ⟨cl, t, some ⟨[.generateClick]⟩, some ⟨prev⟩, s⟩ =
      ⟨cl, t, some ⟨[.generateClick]⟩,
        some ⟨generatedName (arrayGet adjectives (randomIndex adjectives (rand 0)))
          (arrayGet nouns (randomIndex nouns (rand 1)))⟩, s⟩ := by
  simp [clickGenerate, dispatch, runListener, generateClick]

theorem generatorInit_both (cl : DOMTokenList) (t : Option Element) (ls : List Listener)
    (prev : String) (s : Storage) :
    generatorInit ⟨cl, t, some ⟨ls⟩, some ⟨prev⟩, s⟩ =
      ⟨cl, t, some ⟨ls ++ [.generateClick]⟩, some ⟨prev⟩, s⟩ := by
  simp [generatorInit, Element.addEventListener]

theorem arrayGet_fin (xs : List String) (hlen : xs.length = 10) (k : Fin 10) :
    ∃ w, w ∈ xs ∧ arrayGet xs (k.val : ℤ) = some w ∧ xs[k.val]? = some w :=
  arrayGet_of_range xs (k.val : ℤ) (by omega) (by have := k.isLt; omega) |>.imp
    fun w hw => ⟨hw.1, hw.2.1, by simpa using hw.2.2⟩

theorem nameAt_inj (i j i' j' : Fin 10)
    (h : nameAt (i.val : ℤ) (j.val : ℤ) = nameAt (i'.val : ℤ) (j'.val : ℤ)) :
    i = i' ∧ j = j' := by
  obtain ⟨a, ham, ha, hai⟩ := arrayGet_fin adjectives (by decide) i
  obtain ⟨a', ham', ha', hai'⟩ := arrayGet_fin adjectives (by decide) i'
  obtain ⟨n, -, hn, hni⟩ := arrayGet_fin nouns (by decide) j
  obtain ⟨n', -, hn', hni'⟩ := arrayGet_fin nouns (by decide) j'
  unfold nameAt at h
  rw [ha, ha', hn, hn'] at h
  have hw := generatedName_inj a a' n n' (adjectives_no_space a ham)
    (adjectives_no_space a' ham') h
  have hi : i.val = i'.val :=
    List.getElem?_inj (by have := i.isLt; simp [adjectives]) adjectives_nodup
      (by rw [hai, hai', hw.1])
  have hj : j.val = j'.val :=
    List.getElem?_inj (by have := j.isLt; simp [nouns]) nouns_nodup
      (by rw [hni, hni', hw.2])
  exact ⟨Fin.ext hi, Fin.ext hj⟩

/-! ## Lemmas on the random index -/

theorem randomIndex_ten (xs : List String) (hlen : xs.length = 10) (r : ℚ) :
    randomIndex xs r = ⌊roundDouble (r * 10)⌋ := by
  simp [randomIndex, mathFloor, mulDouble, hlen]

theorem randomIndex_range (xs : List String) (hlen : xs.length = 10) (r : ℚ)
    (hd : isDouble r) (h0 : 0 ≤ r) (h1 : r < 1) :
    0 ≤ randomIndex xs r ∧ randomIndex xs r < (xs.length : ℤ) := by
  have h := roundDouble_mul_ten_range hd h0 h1
  rw [randomIndex_ten xs hlen, hlen]
  constructor
  · exact Int.floor_nonneg.2 h.1
  · rw [Int.floor_lt]
    exact_mod_cast h.2

theorem isDouble_half : isDouble (1 / 2) := by
  have := isDouble_dyadic 1 (-1) (by norm_num) (by norm_num)
  have e : ((1 : ℕ) : ℚ) * 2 ^ (-1 : ℤ) = 1 / 2 := by norm_num
  rwa [e] at this

/-- A draw at or above `k / 10` gives an index at or above `k`. -/
theorem le_index_of_le (k : ℕ) (hk : k ≤ 10) (r : ℚ) (h : (k : ℚ) ≤ r * 10) :
    (k : ℤ) ≤ ⌊roundDouble (r * 10)⌋ := by
  rw [Int.le_floor]
  have := le_roundDouble (Nat.cast_nonneg k) h
    (isDouble_natCast k (lt_of_le_of_lt hk (by norm_num)))
  exact_mod_cast this

/-- An index below `k` comes from a draw below `k / 10`. -/
theorem lt_of_index_lt (k : ℕ) (hk : k ≤ 10) (r : ℚ) (h : ⌊roundDouble (r * 10)⌋ < (k : ℤ)) :
    r * 10 < (k : ℚ) := by
  by_contra hc
  rw [not_lt] at hc
  have := le_index_of_le k hk r hc
  omega

/-- A nonnegative product that stays below `n` with the relative rounding error added
rounds to less than `n`. -/
theorem roundDouble_lt_of_mul_lt (n : ℕ) (hn : 1 ≤ n) (x : ℚ) (hx : 0 ≤ x)
    (h : x * (1 + (2 : ℚ) ^ (-53 : ℤ)) < (n : ℚ)) : roundDouble x < (n : ℚ) := by
  have hn1 : (1 : ℚ) ≤ (n : ℚ) := by exact_mod_cast hn
  by_cases hsmall : x < (2 : ℚ) ^ (-1022 : ℤ)
  · have h22 : (2 : ℚ) ^ (-1022 : ℤ) ≤ 1 / 2 := by
      have : (2 : ℚ) ^ (-1022 : ℤ) ≤ (2 : ℚ) ^ (-1 : ℤ) := two_zpow_mono (by norm_num)
      simpa using this
    have := roundDouble_le hx (hsmall.le.trans h22) isDouble_half
    linarith
  · rw [not_lt] at hsmall
    exact lt_of_le_of_lt (roundDouble_le_mul hsmall) h

/-- A nonnegative product that rounds to `n` or more is at least `n` once the relative
rounding error is added. -/
theorem le_mul_of_le_roundDouble (n : ℕ) (x : ℚ) (hx : 0 ≤ x)
    (h : (n : ℚ) ≤ roundDouble x) : (n : ℚ) ≤ x * (1 + (2 : ℚ) ^ (-53 : ℤ)) := by
  rcases Nat.eq_zero_or_pos n with h0 | hpos
  · subst h0
    have : (0 : ℚ) < 1 + (2 : ℚ) ^ (-53 : ℤ) := by positivity
    simpa using mul_nonneg hx this.le
  · by_contra hc
    rw [not_le] at hc
    have := roundDouble_lt_of_mul_lt n hpos x hx hc
    linarith

/-- The two-sided description of the draws that give index `k`. -/
theorem index_eq_of_interval (k : ℕ) (hk : k < 10) (r : ℚ) (h1 : (k : ℚ) / 10 ≤ r)
    (h2 : r * (1 + (2 : ℚ) ^ (-53 : ℤ)) < ((k : ℚ) + 1) / 10) :
    ⌊roundDouble (r * 10)⌋ = (k : ℤ) := by
  have hr : 0 ≤ r := le_trans (by positivity) h1
  have hlo := le_index_of_le k hk.le r (by rw [div_le_iff₀ (by norm_num)] at h1; exact h1)
  have hhi : roundDouble (r * 10) < ((k + 1 : ℕ) : ℚ) := by
    apply roundDouble_lt_of_mul_lt (k + 1) (by omega) (r * 10) (by linarith)
    rw [lt_div_iff₀ (by norm_num)] at h2
    push_cast
    linarith
  have : ⌊roundDouble (r * 10)⌋ < ((k + 1 : ℕ) : ℤ) := by
    rw [Int.floor_lt]
    exact_mod_cast hhi
  push_cast at this
  omega

theorem interval_of_index_eq (k : ℕ) (hk : k < 10) (r : ℚ) (hr : 0 ≤ r)
    (h : ⌊roundDouble (r * 10)⌋ = (k : ℤ)) :
    (k : ℚ) / 10 ≤ r * (1 + (2 : ℚ) ^ (-53 : ℤ)) ∧ r < ((k : ℚ) + 1) / 10 := by
  constructor
  · have h1 : ((k : ℤ) : ℚ) ≤ roundDouble (r * 10) := by
      rw [← h]
      exact Int.floor_le _
    have := le_mul_of_le_roundDouble k (r * 10) (by linarith) (by exact_mod_cast h1)
    rw [div_le_iff₀ (by norm_num)]
    linarith
  · have := lt_of_index_lt (k + 1) (by omega) r (by rw [h]; push_cast; omega)
    rw [lt_div_iff₀ (by norm_num)]
    exact_mod_cast this

theorem index_of_exact_interval (k : ℕ) (hk : k < 10) (r : ℚ) (h1 : (k : ℚ) / 10 ≤ r)
    (h2 : r < ((k : ℚ) + 1) / 10) :
    ⌊roundDouble (r * 10)⌋ = (k : ℤ) ∨ ⌊roundDouble (r * 10)⌋ = (k : ℤ) + 1 := by
  have hr : 0 ≤ r := le_trans (by positivity) h1
  have hlo := le_index_of_le k hk.le r (by rw [div_le_iff₀ (by norm_num)] at h1; exact h1)
  have hhi : roundDouble (r * 10) ≤ ((k + 1 : ℕ) : ℚ) := by
    apply roundDouble_le (by linarith) _ (isDouble_natCast (k + 1) (by omega))
    rw [lt_div_iff₀ (by norm_num)] at h2
    push_cast
    linarith
  have : ⌊roundDouble (r * 10)⌋ ≤ ((k + 1 : ℕ) : ℤ) := by
    have h3 : ((⌊roundDouble (r * 10)⌋ : ℤ) : ℚ) ≤ (((k + 1 : ℕ) : ℤ) : ℚ) :=
      (Int.floor_le _).trans (by exact_mod_cast hhi)
    exact_mod_cast h3
  push_cast at this
  omega

/-- The draws `j / 16` and their products with 10 are doubles. -/
theorem roundDouble_sixteenths (j : ℕ) (hj : j < 16) :
    isDouble ((j : ℚ) / 16) ∧ roundDouble ((j : ℚ) / 16 * 10) = (j : ℚ) / 16 * 10 := by
  constructor
  · have := isDouble_dyadic j (-4) (lt_of_lt_of_le hj (by norm_num)) (by norm_num)
    have e : (j : ℚ) * 2 ^ (-4 : ℤ) = (j : ℚ) / 16 := by norm_num; ring
    rwa [e] at this
  · have := isDouble_dyadic (5 * j) (-3)
      (lt_of_lt_of_le (by omega : 5 * j < 80) (by norm_num)) (by norm_num)
    have e : ((5 * j : ℕ) : ℚ) * 2 ^ (-3 : ℤ) = (j : ℚ) / 16 * 10 := by
      push_cast; norm_num; ring
    rw [e] at this
    exact this

theorem index_sixteenths (j : ℕ) (hj : j < 16) (m : ℤ) (h1 : (m : ℚ) ≤ (j : ℚ) / 16 * 10)
    (h2 : (j : ℚ) / 16 * 10 < (m : ℚ) + 1) :
    isDouble ((j : ℚ) / 16) ∧ 0 ≤ (j : ℚ) / 16 ∧ (j : ℚ) / 16 < 1 ∧
      ⌊roundDouble ((j : ℚ) / 16 * 10)⌋ = m := by
  have h := roundDouble_sixteenths j hj
  refine ⟨h.1, by positivity, ?_, ?_⟩
  · rw [div_lt_one (by norm_num)]
    exact_mod_cast hj
  · rw [h.2, Int.floor_eq_iff]
    exact ⟨h1, h2⟩

/-- Every index in 0..9 is the index of some draw in [0,1). -/
theorem exists_draw (k : Fin 10) :
    ∃ r : ℚ, isDouble r ∧ 0 ≤ r ∧ r < 1 ∧ ⌊roundDouble (r * 10)⌋ = (k.val : ℤ) := by
  fin_cases k
  · exact ⟨_, index_sixteenths 0 (by norm_num) 0 (by norm_num) (by norm_num)⟩
  · exact ⟨_, index_sixteenths 2 (by norm_num) 1 (by norm_num) (by norm_num)⟩
  · exact ⟨_, index_sixteenths 4 (by norm_num) 2 (by norm_num) (by norm_num)⟩
  · exact ⟨_, index_sixteenths 5 (by norm_num) 3 (by norm_num) (by norm_num)⟩
  · exact ⟨_, index_sixteenths 7 (by norm_num) 4 (by norm_num) (by norm_num)⟩
  · exact ⟨_, index_sixteenths 8 (by norm_num) 5 (by norm_num) (by norm_num)⟩
  · exact ⟨_, index_sixteenths 10 (by norm_num) 6 (by norm_num) (by norm_num)⟩
  · exact ⟨_, index_sixteenths 12 (by norm_num) 7 (by norm_num) (by norm_num)⟩
  · exact ⟨_, index_sixteenths 13 (by norm_num) 8 (by norm_num) (by norm_num)⟩
  · exact ⟨_, index_sixteenths 15 (by norm_num) 9 (by norm_num) (by norm_num)⟩

/-- The draw `0.8999999999999999`, the double next below the double nearest to 9/10: its
product with 10 lies half-way between two doubles and rounds to 9. -/
theorem index_below_nine_tenths :
    isDouble (2026619832316723 / 2251799813685248) ∧
    ⌊roundDouble (2026619832316723 / 2251799813685248 * 10)⌋ = 9 := by
  constructor
  · have := isDouble_dyadic 2026619832316723 (-51) (by norm_num) (by norm_num)
    have e : ((2026619832316723 : ℕ) : ℚ) * 2 ^ (-51 : ℤ)
        = 2026619832316723 / 2251799813685248 := by norm_num
    rwa [e] at this
  · have hb := roundDouble_of_bracket (x := 2026619832316723 / 2251799813685248 * 10) 3
      (by norm_num) (by norm_num) (by norm_num)
    have hr : roundHalfEven (2026619832316723 / 2251799813685248 * 10 / 2 ^ ((3 : ℤ) - 52))
        = 5066549580791807 + 1 :=
      roundHalfEven_tie_odd _ 5066549580791807 (by norm_num) (by norm_num)
    rw [hb, hr, Int.floor_eq_iff]
    norm_num

/-- The draw `0.6`, the double nearest to 6/10 and below it: its product with 10 rounds
to 6. -/
theorem index_double_six_tenths :
    isDouble (5404319552844595 / 9007199254740992) ∧
    ⌊roundDouble (5404319552844595 / 9007199254740992 * 10)⌋ = 6 := by
  constructor
  · have := isDouble_dyadic 5404319552844595 (-53) (by norm_num) (by norm_num)
    have e : ((5404319552844595 : ℕ) : ℚ) * 2 ^ (-53 : ℤ)
        = 5404319552844595 / 9007199254740992 := by norm_num
    rwa [e] at this
  · have hb := roundDouble_of_bracket (x := 5404319552844595 / 9007199254740992 * 10) 2
      (by norm_num) (by norm_num) (by norm_num)
    have hr : roundHalfEven (5404319552844595 / 9007199254740992 * 10 / 2 ^ ((2 : ℤ) - 52))
        = 6755399441055744 :=
      roundHalfEven_of_near _ 6755399441055744 (by norm_num) (by norm_num)
    rw [hb, hr, Int.floor_eq_iff]
    norm_num

/-! ## Claims on the codename generator -/

/-- C5: for draws that are doubles in [0,1) and any previous content of the field, a
click on the wired trigger leaves the field holding exactly an adjective of the list,
one space and a noun of the list; both indices are in 0..9, the value holds exactly one
space, and the result of a click does not depend on what the field held, so a second
click leaves only the second name. -/
theorem click_writes_adjective_space_noun (rand rand2 : ℕ → ℚ) (cl : DOMTokenList)
    (t : Option Element) (prev : String) (s : Storage)
    (hd0 : isDouble (rand 0)) (h0 : 0 ≤ rand 0 ∧ rand 0 < 1)
    (hd1 : isDouble (rand 1)) (h1 : 0 ≤ rand 1 ∧ rand 1 < 1) :
    (0 ≤ randomIndex adjectives (rand 0) ∧ randomIndex adjectives (rand 0) ≤ 9) ∧
    (0 ≤ randomIndex nouns (rand 1) ∧ randomIndex nouns (rand 1) ≤ 9) ∧
    (∃ a n, a ∈ adjectives ∧ n ∈ nouns ∧
      arrayGet adjectives (randomIndex adjectives (rand 0)) = some a ∧
      arrayGet nouns (randomIndex nouns (rand 1)) = some n ∧
      (clickGenerate rand (generatorInit ⟨cl, t, some ⟨[]⟩, some ⟨prev⟩, s⟩)).codenameInput
        = some ⟨a ++ " " ++ n⟩ ∧
      (a ++ " " ++ n).data.count ' ' = 1) ∧
    clickGenerate rand2
        (clickGenerate rand (generatorInit ⟨cl, t, some ⟨[]⟩, some ⟨prev⟩, s⟩))
      = clickGenerate rand2 (generatorInit ⟨cl, t, some ⟨[]⟩, some ⟨prev⟩, s⟩) := by
  have ha := randomIndex_range adjectives (by decide) (rand 0) hd0 h0.1 h0.2
  have hn := randomIndex_range nouns (by decide) (rand 1) hd1 h1.1 h1.2
  have hla : (adjectives.length : ℤ) = 10 := by decide
  have hln : (nouns.length : ℤ) = 10 := by decide
  obtain ⟨a, hamem, haget, -⟩ := arrayGet_of_range adjectives _ ha.1 ha.2
  obtain ⟨n, hnmem, hnget, -⟩ := arrayGet_of_range nouns _ hn.1 hn.2
  refine ⟨⟨ha.1, by omega⟩, ⟨hn.1, by omega⟩, ⟨a, n, hamem, hnmem, haget, hnget, ?_, ?_⟩, ?_⟩
  · rw [generatorInit_both, List.nil_append, clickGenerate_single, haget, hnget]
    rfl
  · exact count_space_generatedName a n (adjectives_no_space a hamem) (nouns_no_space n hnmem)
  · simp only [generatorInit_both, List.nil_append, clickGenerate_single]

/-- C5 for the draws 0.8999999999999999 and 0.6 on a field holding "old": both products
round up to an integer, and the field then holds "Cold Raven". -/
theorem click_writes_adjective_space_noun_witness :
    (clickGenerate
      (fun k => if k = 0 then 2026619832316723 / 2251799813685248
        else 5404319552844595 / 9007199254740992)
      (generatorInit ⟨[], none, some ⟨[]⟩, some ⟨"old"⟩, .entries []⟩)).codenameInput
        = some ⟨"Cold Raven"⟩ := by
  obtain ⟨-, -, ⟨a, n, -, -, ha, hn, hv, -⟩, -⟩ :=
    click_writes_adjective_space_noun
      (fun k => if k = 0 then 2026619832316723 / 2251799813685248
        else 5404319552844595 / 9007199254740992)
      (fun _ => 0) [] none "old" (.entries [])
      index_below_nine_tenths.1 (by norm_num) index_double_six_tenths.1 (by norm_num)
  have ha9 : randomIndex adjectives ((fun k : ℕ => if k = 0
      then (2026619832316723 / 2251799813685248 : ℚ)
      else 5404319552844595 / 9007199254740992) 0) = 9 := by
    rw [randomIndex_ten adjectives (by decide)]
    exact index_below_nine_tenths.2
  have hn6 : randomIndex nouns ((fun k : ℕ => if k = 0
      then (2026619832316723 / 2251799813685248 : ℚ)
      else 5404319552844595 / 9007199254740992) 1) = 6 := by
    rw [randomIndex_ten nouns (by decide)]
    exact index_double_six_tenths.2
  rw [ha9] at ha
  rw [hn6] at hn
  have ea : a = "Cold" := by
    have : arrayGet adjectives 9 = some "Cold" := by decide
    rw [this] at ha
    exact (Option.some.inj ha).symm
  have en : n = "Raven" := by
    have : arrayGet nouns 6 = some "Raven" := by decide
    rw [this] at hn
    exact (Option.some.inj hn).symm
  rw [hv, ea, en]
  rfl

/-- C8, at the draw 0.8999999999999999: it is a double in [8/10, 9/10) and the floor of
ten times it is 8, yet the script's index is 9 and the word picked is the tenth
adjective. -/
theorem index_differs_from_exact_floor :
    isDouble (2026619832316723 / 2251799813685248) ∧
    (8 : ℚ) / 10 ≤ 2026619832316723 / 2251799813685248 ∧
    (2026619832316723 / 2251799813685248 : ℚ) < 9 / 10 ∧
    ⌊(10 : ℚ) * (2026619832316723 / 2251799813685248)⌋ = 8 ∧
    randomIndex adjectives (2026619832316723 / 2251799813685248) = 9 ∧
    arrayGet adjectives (randomIndex adjectives (2026619832316723 / 2251799813685248))
      = some "Cold" := by
  have h9 : randomIndex adjectives (2026619832316723 / 2251799813685248) = 9 := by
    rw [randomIndex_ten adjectives (by decide)]
    exact index_below_nine_tenths.2
  refine ⟨index_below_nine_tenths.1, by norm_num, by norm_num, ?_, h9, ?_⟩
  · rw [Int.floor_eq_iff]
    norm_num
  · rw [h9]
    decide

/-- C8 (amended): for a draw that is a double in [0,1) the index is the floor of the
product of the draw and 10 rounded to the nearest double, and lies in 0..9. For each k
in 0..9, a draw with k/10 ≤ r and r(1 + 2^-53) < (k+1)/10 gives index k and the k-th
word; a draw that gives the k-th word has k/10 ≤ r(1 + 2^-53) and r < (k+1)/10; a draw
with k/10 ≤ r < (k+1)/10 gives index k or k+1; some draw in [0,1) gives the k-th word of
each list. The written name takes its adjective from the first draw alone and its noun
from the second alone. -/
theorem selection_intervals (k : Fin 10) (r r1 r2 : ℚ) (cl : DOMTokenList)
    (t g : Option Element) (prev : String) (s : Storage)
    (hd : isDouble r) (h0 : 0 ≤ r) (h1 : r < 1) :
    (randomIndex adjectives r = ⌊roundDouble (r * 10)⌋ ∧
      randomIndex nouns r = ⌊roundDouble (r * 10)⌋) ∧
    (0 ≤ ⌊roundDouble (r * 10)⌋ ∧ ⌊roundDouble (r * 10)⌋ ≤ 9) ∧
    ((k.val : ℚ) / 10 ≤ r ∧ r * (1 + (2 : ℚ) ^ (-53 : ℤ)) < ((k.val : ℚ) + 1) / 10 →
      ⌊roundDouble (r * 10)⌋ = (k.val : ℤ) ∧
      arrayGet adjectives (randomIndex adjectives r) = adjectives[k.val]? ∧
      arrayGet nouns (randomIndex nouns r) = nouns[k.val]?) ∧
    (arrayGet adjectives (randomIndex adjectives r) = adjectives[k.val]? ∨
        arrayGet nouns (randomIndex nouns r) = nouns[k.val]? →
      ⌊roundDouble (r * 10)⌋ = (k.val : ℤ) ∧
      (k.val : ℚ) / 10 ≤ r * (1 + (2 : ℚ) ^ (-53 : ℤ)) ∧ r < ((k.val : ℚ) + 1) / 10) ∧
    ((k.val : ℚ) / 10 ≤ r ∧ r < ((k.val : ℚ) + 1) / 10 →
      ⌊roundDouble (r * 10)⌋ = (k.val : ℤ) ∨ ⌊roundDouble (r * 10)⌋ = (k.val : ℤ) + 1) ∧
    (∃ r0 : ℚ, isDouble r0 ∧ 0 ≤ r0 ∧ r0 < 1 ∧
      arrayGet adjectives (randomIndex adjectives r0) = adjectives[k.val]? ∧
      arrayGet nouns (randomIndex nouns r0) = nouns[k.val]?) ∧
    (generateClick r1 r2 ⟨cl, t, g, some ⟨prev⟩, s⟩).codenameInput =
      some ⟨interpolate (arrayGet adjectives ⌊roundDouble (r1 * 10)⌋) ++ " " ++
        interpolate (arrayGet nouns ⌊roundDouble (r2 * 10)⌋)⟩ := by
  have hk : k.val < 10 := k.isLt
  have hia := randomIndex_ten adjectives (by decide) r
  have hin := randomIndex_ten nouns (by decide) r
  have hrange := roundDouble_mul_ten_range hd h0 h1
  have hga : ∀ x : ℤ, arrayGet adjectives x = adjectives[k.val]? ↔ x = (k.val : ℤ) :=
    fun x => arrayGet_eq_iff adjectives adjectives_nodup x k.val (by simp [adjectives])
  have hgn : ∀ x : ℤ, arrayGet nouns x = nouns[k.val]? ↔ x = (k.val : ℤ) :=
    fun x => arrayGet_eq_iff nouns nouns_nodup x k.val (by simp [nouns])
  refine ⟨⟨hia, hin⟩, ⟨Int.floor_nonneg.2 hrange.1, ?_⟩, ?_, ?_, ?_, ?_, ?_⟩
  · have : ⌊roundDouble (r * 10)⌋ < 10 := by
      rw [Int.floor_lt]
      exact_mod_cast hrange.2
    omega
  · rintro ⟨hlo, hhi⟩
    have := index_eq_of_interval k.val hk r hlo hhi
    exact ⟨this, (hga _).2 (hia.trans this), (hgn _).2 (hin.trans this)⟩
  · intro hw
    have hidx : ⌊roundDouble (r * 10)⌋ = (k.val : ℤ) := by
      rcases hw with hw | hw
      · exact hia ▸ (hga _).1 hw
      · exact hin ▸ (hgn _).1 hw
    exact ⟨hidx, interval_of_index_eq k.val hk r h0 hidx⟩
  · rintro ⟨hlo, hhi⟩
    exact index_of_exact_interval k.val hk r hlo hhi
  · obtain ⟨r0, hd0, h00, h01, hidx⟩ := exists_draw k
    refine ⟨r0, hd0, h00, h01, (hga _).2 ?_, (hgn _).2 ?_⟩
    · rw [randomIndex_ten adjectives (by decide)]; exact hidx
    · rw [randomIndex_ten nouns (by decide)]; exact hidx
  · simp only [generateClick, generatedName, randomIndex_ten adjectives (by decide),
      randomIndex_ten nouns (by decide)]

/-- C8 (amended) for the draw 1/2 and k = 5: the index is 5 and the words picked are
"Ghost" and "Hunter". -/
theorem selection_intervals_witness :
    isDouble (1 / 2) ∧ randomIndex adjectives (1 / 2) = 5 ∧
    arrayGet adjectives (randomIndex adjectives (1 / 2)) = some "Ghost" ∧
    arrayGet nouns (randomIndex nouns (1 / 2)) = some "Hunter" := by
  obtain ⟨⟨hia, -⟩, -, h, -⟩ := selection_intervals (5 : Fin 10) (1 / 2) 0 0 [] none none ""
    (.entries []) isDouble_half (by norm_num) (by norm_num)
  have e5 : (5 : Fin 10).val = 5 := rfl
  rw [e5] at h
  obtain ⟨hidx, ha, hn⟩ := h (by norm_num)
  exact ⟨isDouble_half, hia.trans hidx, ha, hn⟩

/-- C10: the map from an index pair in 0..9 x 0..9 to the generated name is injective,
no list repeats a word and no word holds a space, so the pairs give 100 distinct names;
each of the 100 names is written for some pair of draws in [0,1); and for draws that are
doubles in [0,1) the value that a click writes is the name of the pair of its two
indices, both in 0..9. -/
theorem hundred_distinct_names (r1 r2 : ℚ) (cl : DOMTokenList) (t g : Option Element)
    (prev : String) (s : Storage)
    (hd1 : isDouble r1) (h1 : 0 ≤ r1 ∧ r1 < 1) (hd2 : isDouble r2) (h2 : 0 ≤ r2 ∧ r2 < 1) :
    Function.Injective (fun p : Fin 10 × Fin 10 => nameAt (p.1.val : ℤ) (p.2.val : ℤ)) ∧
    (adjectives.Nodup ∧ nouns.Nodup) ∧
    ((∀ a ∈ adjectives, ' ' ∉ a.data) ∧ (∀ n ∈ nouns, ' ' ∉ n.data)) ∧
    (Finset.univ.image
      (fun p : Fin 10 × Fin 10 => nameAt (p.1.val : ℤ) (p.2.val : ℤ))).card = 100 ∧
    (∀ p : Fin 10 × Fin 10, ∃ d1 d2 : ℚ,
      (isDouble d1 ∧ 0 ≤ d1 ∧ d1 < 1) ∧ (isDouble d2 ∧ 0 ≤ d2 ∧ d2 < 1) ∧
      (generateClick d1 d2 ⟨cl, t, g, some ⟨prev⟩, s⟩).codenameInput
        = some ⟨nameAt (p.1.val : ℤ) (p.2.val : ℤ)⟩) ∧
    ((0 ≤ randomIndex adjectives r1 ∧ randomIndex adjectives r1 ≤ 9) ∧
      (0 ≤ randomIndex nouns r2 ∧ randomIndex nouns r2 ≤ 9) ∧
      (generateClick r1 r2 ⟨cl, t, g, some ⟨prev⟩, s⟩).codenameInput
        = some ⟨nameAt (randomIndex adjectives r1) (randomIndex nouns r2)⟩) ∧
    ∃ p : Fin 10 × Fin 10,
      (generateClick r1 r2 ⟨cl, t, g, some ⟨prev⟩, s⟩).codenameInput
        = some ⟨nameAt (p.1.val : ℤ) (p.2.val : ℤ)⟩ := by
  have hinj : Function.Injective
      (fun p : Fin 10 × Fin 10 => nameAt (p.1.val : ℤ) (p.2.val : ℤ)) := by
    intro p q hpq
    have := nameAt_inj p.1 p.2 q.1 q.2 hpq
    exact Prod.ext this.1 this.2
  have ha := randomIndex_range adjectives (by decide) r1 hd1 h1.1 h1.2
  have hn := randomIndex_range nouns (by decide) r2 hd2 h2.1 h2.2
  have hla : (adjectives.length : ℤ) = 10 := by decide
  have hln : (nouns.length : ℤ) = 10 := by decide
  refine ⟨hinj, ⟨adjectives_nodup, nouns_nodup⟩, ⟨adjectives_no_space, nouns_no_space⟩,
    ?_, ?_, ⟨⟨ha.1, by omega⟩, ⟨hn.1, by omega⟩, ?_⟩, ?_⟩
  · rw [Finset.card_image_of_injective _ hinj]
    simp
  · intro p
    obtain ⟨d1, hdd1, h10, h11, hi1⟩ := exists_draw p.1
    obtain ⟨d2, hdd2, h20, h21, hi2⟩ := exists_draw p.2
    refine ⟨d1, d2, ⟨hdd1, h10, h11⟩, ⟨hdd2, h20, h21⟩, ?_⟩
    simp only [generateClick, nameAt, randomIndex_ten adjectives (by decide),
      randomIndex_ten nouns (by decide), hi1, hi2]
  · simp only [generateClick, nameAt]
  · refine ⟨(⟨(randomIndex adjectives r1).toNat, by omega⟩,
      ⟨(randomIndex nouns r2).toNat, by omega⟩), ?_⟩
    simp only [generateClick, nameAt, Int.toNat_of_nonneg ha.1, Int.toNat_of_nonneg hn.1]

/-- C10 for the draws 0.8999999999999999 and 0.6 on an empty field: the indices are 9
and 6 and the value written is "Cold Raven", the name of the pair (9, 6). -/
theorem hundred_distinct_names_witness :
    randomIndex adjectives (2026619832316723 / 2251799813685248) = 9 ∧
    randomIndex nouns (5404319552844595 / 9007199254740992) = 6 ∧
    (generateClick (2026619832316723 / 2251799813685248)
      (5404319552844595 / 9007199254740992)
      ⟨[], none, some ⟨[.generateClick]⟩, some ⟨""⟩, .entries []⟩).codenameInput
        = some ⟨"Cold Raven"⟩ ∧
    nameAt 9 6 = "Cold Raven" := by
  obtain ⟨-, -, -, -, -, ⟨-, -, hv⟩, -⟩ :=
    hundred_distinct_names (2026619832316723 / 2251799813685248)
      (5404319552844595 / 9007199254740992) [] none (some ⟨[.generateClick]⟩) ""
      (.entries []) index_below_nine_tenths.1 (by norm_num) index_double_six_tenths.1
      (by norm_num)
  have h9 : randomIndex adjectives (2026619832316723 / 2251799813685248) = 9 := by
    rw [randomIndex_ten adjectives (by decide)]
    exact index_below_nine_tenths.2
  have h6 : randomIndex nouns (5404319552844595 / 9007199254740992) = 6 := by
    rw [randomIndex_ten nouns (by decide)]
    exact index_double_six_tenths.2
  have hname : nameAt 9 6 = "Cold Raven" := by decide
  rw [h9, h6, hname] at hv
  exact ⟨h9, h6, hv, hname⟩

end Script
